import Mathlib

/-!
Shallow embedding of the numeric helper layer of the POD / SPOD educational
animation repository: the eigenvalue reordering step of
`pod_educational_3d.py`, the projected-energy and energy-ratio computations
of `pod_educational_2d.py` and `base_scenes.py`, the covariance construction
of `geometry.py`, and the gradient / interpolation helpers of `helpers.py`.

Floating-point values are modelled as rationals (every IEEE float is a
rational number) wherever the code performs only field arithmetic, and as
real numbers wherever the code applies `cos` / `sin` / `exp` / `sqrt`.
-/

namespace PODSpec

/-! ### Eigenvalue reordering (`pod_educational_3d.py`, `scene5_3d_extension`)

After `eigvals, eigvecs = np.linalg.eigh(cov_3d_matrix)` the scene computes
`order = np.argsort(eigvals)[::-1]` and applies `order` to both the
eigenvalue array and the eigenvector columns.  The eigenvalue array produced
by the library call is an arbitrary list of numbers here. -/

/-- `np.argsort(eigvals)`: the list of indices of `vals`, arranged so that the
corresponding values are in stable ascending order. -/
def argsortAsc (vals : List ℚ) : List (Fin vals.length) :=
  List.insertionSort (fun i j => vals.get i ≤ vals.get j) (List.finRange vals.length)

/-- `order = np.argsort(eigvals)[::-1]`: the ascending index order, reversed. -/
def argsortDesc (vals : List ℚ) : List (Fin vals.length) :=
  (argsortAsc vals).reverse

/-- `eigvals = eigvals[order]`: the eigenvalue array re-indexed by `order`. -/
def reorder_vals (vals : List ℚ) : List ℚ :=
  (argsortDesc vals).map vals.get

/-- `eigvecs = eigvecs[:, order]`: the same index order applied to the columns
of the eigenvector matrix (columns given as a function from index to column). -/
def reorder_cols {V : Type} (vals : List ℚ) (vecs : Fin vals.length → V) : List V :=
  (argsortDesc vals).map vecs

/-! ### `smooth_step` (`helpers.py`, lines 112-123) -/

/-- `np.clip(x, lo, hi)` on scalars. -/
def np_clip (x lo hi : ℚ) : ℚ := min (max x lo) hi

/-- `smooth_step(t, edge0, edge1)`: clip the normalized parameter to `[0, 1]`,
then apply the Hermite cubic `t * t * (3 - 2 * t)`. -/
def smooth_step (t edge0 edge1 : ℚ) : ℚ :=
  let s := np_clip ((t - edge0) / (edge1 - edge0)) 0 1
  s * s * (3 - 2 * s)

/-! ### `numerical_gradient_2d` (`helpers.py`, lines 146-161) -/

/-- Python float division: raises `ZeroDivisionError` on a zero denominator,
modelled as `none`. -/
def pydiv (a b : ℚ) : Option ℚ := if b = 0 then none else some (a / b)

/-- `numerical_gradient_2d(func, x, y, h)`: central-difference gradient
`[(f(x+h,y) - f(x-h,y)) / (2h), (f(x,y+h) - f(x,y-h)) / (2h), 0]`, with the
two divisions by `2 * h` performed by fallible Python division. -/
def numerical_gradient_2d (func : ℚ → ℚ → ℚ) (x y h : ℚ) : Option (ℚ × ℚ × ℚ) :=
  match pydiv (func (x + h) y - func (x - h) y) (2 * h) with
  | none => none
  | some grad_x =>
    match pydiv (func x (y + h) - func x (y - h)) (2 * h) with
    | none => none
    | some grad_y => some (grad_x, grad_y, 0)

/-! ### Vectors and 2x2 matrices over the reals -/

/-- A 3-component real vector, the model of a numpy array `[x, y, z]`. -/
@[ext] structure Vec3 where
  x : ℝ
  y : ℝ
  z : ℝ

/-- Elementwise sum of two numpy 3-vectors. -/
noncomputable def vadd (u v : Vec3) : Vec3 := ⟨u.x + v.x, u.y + v.y, u.z + v.z⟩

/-- A 2x2 real matrix `[[a, b], [c, d]]`, the model of a numpy 2x2 array. -/
@[ext] structure Mat2 where
  a : ℝ
  b : ℝ
  c : ℝ
  d : ℝ

/-- Matrix product `m @ n` of 2x2 matrices. -/
noncomputable def matMul (m n : Mat2) : Mat2 :=
  ⟨m.a * n.a + m.b * n.c, m.a * n.b + m.b * n.d,
   m.c * n.a + m.d * n.c, m.c * n.b + m.d * n.d⟩

/-- `m.T` for a 2x2 matrix. -/
def transposeM (m : Mat2) : Mat2 := ⟨m.a, m.c, m.b, m.d⟩

/-- `np.diag([l1, l2])`. -/
def diagM (l1 l2 : ℝ) : Mat2 := ⟨l1, 0, 0, l2⟩

/-- The quadratic form `[x, y] @ m @ [x, y]` of a 2x2 matrix. -/
noncomputable def quadForm (m : Mat2) (x y : ℝ) : ℝ :=
  m.a * x * x + m.b * x * y + m.c * y * x + m.d * y * y

/-- A 2x2 matrix is symmetric when its two off-diagonal entries agree. -/
def IsSymmMat2 (m : Mat2) : Prop := m.b = m.c

/-- Positive definite: the quadratic form is positive away from the origin. -/
def PosDefMat2 (m : Mat2) : Prop :=
  ∀ x y : ℝ, ¬(x = 0 ∧ y = 0) → 0 < quadForm m x y

/-- Indefinite: the quadratic form takes both a positive and a negative value. -/
def IndefMat2 (m : Mat2) : Prop :=
  (∃ x y : ℝ, 0 < quadForm m x y) ∧ (∃ x y : ℝ, quadForm m x y < 0)

/-! ### Path and matrix interpolation (`helpers.py`, lines 91-141) -/

/-- `lerp_path(path_a, path_b, alpha)`: the lazily evaluated blended path
`t -> (1 - alpha) * path_a(t) + alpha * path_b(t)` (elementwise numpy
arithmetic on the two 3-vectors). -/
noncomputable def lerp_path (path_a path_b : ℝ → Vec3) (alpha : ℝ) : ℝ → Vec3 :=
  fun t =>
    let point_a := path_a t
    let point_b := path_b t
    ⟨(1 - alpha) * point_a.x + alpha * point_b.x,
     (1 - alpha) * point_a.y + alpha * point_b.y,
     (1 - alpha) * point_a.z + alpha * point_b.z⟩

/-- `lerp_matrix(mat_a, mat_b, alpha) = (1 - alpha) * mat_a + alpha * mat_b`
(elementwise numpy arithmetic). -/
noncomputable def lerp_matrix (mat_a mat_b : Mat2) (alpha : ℝ) : Mat2 :=
  ⟨(1 - alpha) * mat_a.a + alpha * mat_b.a,
   (1 - alpha) * mat_a.b + alpha * mat_b.b,
   (1 - alpha) * mat_a.c + alpha * mat_b.c,
   (1 - alpha) * mat_a.d + alpha * mat_b.d⟩

/-! ### Projected energy (`pod_educational_2d.py`, `update_energy`) and the
normalized energy ratio (`base_scenes.py`, `build_energy_meter`) -/

/-- `update_energy`: with `direction = [cos angle, sin angle]`, the energy
`np.sum((data_points @ direction) ** 2)` — the sum over the rows of the
squared dot product with the direction. -/
noncomputable def update_energy (data_points : List (ℝ × ℝ)) (angle : ℝ) : ℝ :=
  let direction := (Real.cos angle, Real.sin angle)
  ((data_points.map (fun p => (p.1 * direction.1 + p.2 * direction.2) ^ 2)).sum)

/-- The specification formula `E(θ) = Σ_i (P_i · [cos θ, sin θ])²`, written as
a sum over the index set of the point list. -/
noncomputable def energySpec (P : List (ℝ × ℝ)) (θ : ℝ) : ℝ :=
  ∑ i : Fin P.length, ((P.get i).1 * Real.cos θ + (P.get i).2 * Real.sin θ) ^ 2

/-- `np.clip` on real scalars. -/
noncomputable def np_clipR (x lo hi : ℝ) : ℝ := min (max x lo) hi

/-- `total_energy = np.sum(np.linalg.norm(samples, axis=1) ** 2) + 1e-6`:
the rows' Euclidean norms, squared and summed, plus the epsilon. -/
noncomputable def total_energy (samples : List (ℝ × ℝ)) : ℝ :=
  ((samples.map (fun p => Real.sqrt (p.1 ^ 2 + p.2 ^ 2) ^ 2)).sum) + 1 / 1000000

/-- `energy_ratio()`: the projected energy divided by `total_energy`, clipped
to `[0, 1]` by `np.clip(energy / total_energy, 0.0, 1.0)`. -/
noncomputable def energy_ratio (samples : List (ℝ × ℝ)) (angle : ℝ) : ℝ :=
  let direction := (Real.cos angle, Real.sin angle)
  let energy := ((samples.map (fun p => (p.1 * direction.1 + p.2 * direction.2) ^ 2)).sum)
  np_clipR (energy / total_energy samples) 0 1

/-! ### Covariance construction (`geometry.py`, `create_pod_covariance_matrix`) -/

/-- The standard 2D rotation matrix `R(θ) = [[cos θ, -sin θ], [sin θ, cos θ]]`,
as named by the specification. -/
noncomputable def rotationM (θ : ℝ) : Mat2 :=
  ⟨Real.cos θ, -Real.sin θ, Real.sin θ, Real.cos θ⟩

/-- `create_pod_covariance_matrix(theta, lambda1, lambda2)`: build
`R = [[cos_t, -sin_t], [sin_t, cos_t]]`, `Lambda = np.diag([lambda1, lambda2])`
and return `R @ Lambda @ R.T`. -/
noncomputable def create_pod_covariance_matrix (theta lambda1 lambda2 : ℝ) : Mat2 :=
  let cos_t := Real.cos theta
  let sin_t := Real.sin theta
  let R : Mat2 := ⟨cos_t, -sin_t, sin_t, cos_t⟩
  let Lambda := diagM lambda1 lambda2
  matMul (matMul R Lambda) (transposeM R)

/-! ### Analytic gradients (`helpers.py`, lines 12-57) and the rendered
surface height (`geometry.py`, `abstract_landscape_surface`) -/

/-- `gaussian_gradient(x, y, center, sigma_x, sigma_y, amplitude)`:
`f_val = amplitude * exp(-(dx²/(2σx²) + dy²/(2σy²)))` and the gradient
`[-f_val * dx / σx², -f_val * dy / σy², 0]`. -/
noncomputable def gaussian_gradient (x y cx cy sigma_x sigma_y amplitude : ℝ) : Vec3 :=
  let dx := x - cx
  let dy := y - cy
  let exp_term := Real.exp (-(dx ^ 2 / (2 * sigma_x ^ 2) + dy ^ 2 / (2 * sigma_y ^ 2)))
  let f_val := amplitude * exp_term
  ⟨-f_val * dx / sigma_x ^ 2, -f_val * dy / sigma_y ^ 2, 0⟩

/-- `composite_gradient(x, y)`: the Gaussian gradient at the default
parameters (center `(0,0)`, `σx = 3`, `σy = 2`, amplitude `0.8`) plus the
analytic gradient of the ripple `0.4 * sin(0.8 x) * cos(0.6 y)`. -/
noncomputable def composite_gradient (x y : ℝ) : Vec3 :=
  let grad1 := gaussian_gradient x y 0 0 3 2 0.8
  let grad_sin_x := 0.4 * 0.8 * Real.cos (0.8 * x) * Real.cos (0.6 * y)
  let grad_sin_y := -0.4 * 0.6 * Real.sin (0.8 * x) * Real.sin (0.6 * y)
  vadd grad1 ⟨grad_sin_x, grad_sin_y, 0⟩

/-- The scalar field whose gradient `composite_gradient` claims to be:
`f(x, y) = 0.8 · exp(-x²/(2·3²) - y²/(2·2²)) + 0.4 · sin(0.8 x) · cos(0.6 y)`. -/
noncomputable def fComp (x y : ℝ) : ℝ :=
  0.8 * Real.exp (-x ^ 2 / (2 * 3 ^ 2) - y ^ 2 / (2 * 2 ^ 2)) +
    0.4 * Real.sin (0.8 * x) * Real.cos (0.6 * y)

/-- The height function of `abstract_landscape_surface.surface_func`:
`z = 0.8 * exp(-(u²/9 + v²/4)) + 0.4 * sin(0.8 u) * cos(0.6 v)`. -/
noncomputable def surface_height (u v : ℝ) : ℝ :=
  0.8 * Real.exp (-(u ^ 2 / 9 + v ^ 2 / 4)) + 0.4 * Real.sin (0.8 * u) * Real.cos (0.6 * v)

/-! ## Theorems -/

/-- Monotonicity of the Hermite cubic `s * s * (3 - 2 * s)` on `[0, 1]`. -/
lemma hermite_cubic_mono {a b : ℚ} (h0 : 0 ≤ a) (hab : a ≤ b) (h1 : b ≤ 1) :
    a * a * (3 - 2 * a) ≤ b * b * (3 - 2 * b) := by
  nlinarith [mul_nonneg h0 (sub_nonneg.2 hab), mul_nonneg (sub_nonneg.2 hab) (sub_nonneg.2 h1),
    sq_nonneg (a - b), sq_nonneg (a + b), mul_nonneg (mul_nonneg h0 h0) (sub_nonneg.2 hab)]

/-- C1: after the reordering step (`order = np.argsort(eigvals)[::-1]` applied
to the eigenvalue array), the returned eigenvalues are in descending order
`λ_1 ≥ λ_2 ≥ ...` for every input array, and the reordered array is a
permutation of the input. -/
theorem reorder_vals_sorted_descending (vals : List ℚ) :
    (reorder_vals vals).Sorted (· ≥ ·) ∧ (reorder_vals vals).Perm vals := by
  constructor
  · unfold reorder_vals argsortDesc
    rw [List.Sorted, List.pairwise_map, List.pairwise_reverse]
    haveI : IsTotal (Fin vals.length) (fun i j => vals.get i ≤ vals.get j) :=
      ⟨fun i j => le_total _ _⟩
    haveI : IsTrans (Fin vals.length) (fun i j => vals.get i ≤ vals.get j) :=
      ⟨fun _ _ _ hij hjk => le_trans hij hjk⟩
    exact List.sorted_insertionSort _ _
  · unfold reorder_vals argsortDesc argsortAsc
    have h1 : (((List.insertionSort (fun i j => vals.get i ≤ vals.get j)
        (List.finRange vals.length)).reverse).map vals.get).Perm
        ((List.insertionSort (fun i j => vals.get i ≤ vals.get j)
          (List.finRange vals.length)).map vals.get) :=
      (List.reverse_perm _).map vals.get
    have h2 : ((List.insertionSort (fun i j => vals.get i ≤ vals.get j)
        (List.finRange vals.length)).map vals.get).Perm
        ((List.finRange vals.length).map vals.get) :=
      (List.perm_insertionSort _ _).map vals.get
    have h3 := h1.trans h2
    rwa [List.finRange_map_get vals] at h3

/-- C7: for `edge0 < edge1`, `smooth_step` is `0` at `edge0` and for every
`t < edge0`, is `1` at `edge1` and for every `t > edge1`, is monotonically
non-decreasing on `[edge0, edge1]`, and on the interval equals
`3 s² - 2 s³` of the normalized parameter `s = (t - edge0) / (edge1 - edge0)`. -/
theorem smooth_step_spec (edge0 edge1 : ℚ) (h : edge0 < edge1) :
    smooth_step edge0 edge0 edge1 = 0 ∧
    smooth_step edge1 edge0 edge1 = 1 ∧
    (∀ t1 t2, edge0 ≤ t1 → t1 ≤ t2 → t2 ≤ edge1 →
      smooth_step t1 edge0 edge1 ≤ smooth_step t2 edge0 edge1) ∧
    (∀ t, t < edge0 → smooth_step t edge0 edge1 = 0) ∧
    (∀ t, edge1 < t → smooth_step t edge0 edge1 = 1) ∧
    (∀ t, edge0 ≤ t → t ≤ edge1 →
      smooth_step t edge0 edge1 =
        3 * ((t - edge0) / (edge1 - edge0)) ^ 2 -
          2 * ((t - edge0) / (edge1 - edge0)) ^ 3) := by
  have hd : (0 : ℚ) < edge1 - edge0 := sub_pos.2 h
  have hid : ∀ t, edge0 ≤ t → t ≤ edge1 →
      np_clip ((t - edge0) / (edge1 - edge0)) 0 1 = (t - edge0) / (edge1 - edge0) := by
    intro t h0 h1
    have hs0 : 0 ≤ (t - edge0) / (edge1 - edge0) := div_nonneg (sub_nonneg.2 h0) hd.le
    have hs1 : (t - edge0) / (edge1 - edge0) ≤ 1 :=
      (div_le_one hd).2 (sub_le_sub_right h1 edge0)
    simp [np_clip, max_eq_left hs0, min_eq_left hs1]
  refine ⟨?_, ?_, ?_, ?_, ?_, ?_⟩
  · simp [smooth_step, np_clip]
  · have : (edge1 - edge0) / (edge1 - edge0) = 1 := div_self hd.ne.symm
    simp [smooth_step, np_clip, this]
    norm_num
  · intro t1 t2 h0 h12 h1
    have e1 := hid t1 h0 (le_trans h12 h1)
    have e2 := hid t2 (le_trans h0 h12) h1
    simp only [smooth_step, e1, e2]
    exact hermite_cubic_mono (div_nonneg (sub_nonneg.2 h0) hd.le)
      (div_le_div_of_nonneg_right (sub_le_sub_right h12 edge0) hd.le)
      ((div_le_one hd).2 (sub_le_sub_right h1 edge0))
  · intro t ht
    have hneg : (t - edge0) / (edge1 - edge0) < 0 :=
      div_neg_of_neg_of_pos (sub_neg.2 ht) hd
    simp [smooth_step, np_clip, max_eq_right hneg.le]
  · intro t ht
    have h1 : 1 < (t - edge0) / (edge1 - edge0) := (one_lt_div hd).2 (sub_lt_sub_right ht edge0)
    have h0 : (0 : ℚ) ≤ (t - edge0) / (edge1 - edge0) := le_of_lt (lt_trans one_pos h1)
    simp [smooth_step, np_clip, max_eq_left h0, min_eq_right h1.le]
    norm_num
  · intro t h0 h1
    simp only [smooth_step, hid t h0 h1]
    ring

/-- Witness for C7 at `edge0 = 0`, `edge1 = 1`. -/
theorem smooth_step_spec_witness :
    (0 : ℚ) < 1 ∧ smooth_step 0 0 1 = 0 ∧ smooth_step 1 0 1 = 1 :=
  ⟨by decide, (smooth_step_spec 0 1 (by decide)).1, (smooth_step_spec 0 1 (by decide)).2.1⟩

/-- C8: `lerp_path(A, B, 0)(t) = A(t)` and `lerp_path(A, B, 1)(t) = B(t)`
exactly, for every `t`; likewise `lerp_matrix(Q_a, Q_b, 0) = Q_a` and
`lerp_matrix(Q_a, Q_b, 1) = Q_b` for all matrices. -/
theorem lerp_endpoints (path_a path_b : ℝ → Vec3) (t : ℝ) (mat_a mat_b : Mat2) :
    lerp_path path_a path_b 0 t = path_a t ∧
    lerp_path path_a path_b 1 t = path_b t ∧
    lerp_matrix mat_a mat_b 0 = mat_a ∧
    lerp_matrix mat_a mat_b 1 = mat_b := by
  refine ⟨?_, ?_, ?_, ?_⟩ <;> (ext <;> simp [lerp_path, lerp_matrix])

/-- C9: `numerical_gradient_2d` performs no check on the step `h`: for `h ≠ 0`
it returns exactly the central-difference vector (the two divisions by `2h`
are well defined), while a call with `h = 0` reaches a division by zero. -/
theorem numerical_gradient_2d_spec (func : ℚ → ℚ → ℚ) (x y h : ℚ) :
    (h ≠ 0 →
      numerical_gradient_2d func x y h =
        some ((func (x + h) y - func (x - h) y) / (2 * h),
              (func x (y + h) - func x (y - h)) / (2 * h), 0)) ∧
    numerical_gradient_2d func x y 0 = none := by
  constructor
  · intro hne
    have h2 : (2 : ℚ) * h ≠ 0 := mul_ne_zero two_ne_zero hne
    simp [numerical_gradient_2d, pydiv, h2]
  · simp [numerical_gradient_2d, pydiv]

/-- Witness for C9 at `f(a, b) = a² + b`, `(x, y) = (1, 2)`, `h = 1/100`. -/
theorem numerical_gradient_2d_spec_witness :
    (1 / 100 : ℚ) ≠ 0 ∧
      numerical_gradient_2d (fun a b => a * a + b) 1 2 (1 / 100) = some (2, 1, 0) := by
  refine ⟨by norm_num, ?_⟩
  rw [(numerical_gradient_2d_spec (fun a b => a * a + b) 1 2 (1 / 100)).1 (by norm_num)]
  norm_num

/-- Summing a mapped list equals summing over the index set of the list. -/
lemma list_sum_map_eq_fin_sum {α : Type} (f : α → ℝ) (l : List α) :
    (l.map f).sum = ∑ i : Fin l.length, f (l.get i) := by
  induction l with
  | nil => simp
  | cons a t ih =>
    simp only [List.map_cons, List.sum_cons, List.length_cons]
    rw [Fin.sum_univ_succ, ih]
    rfl

/-- C2: `update_energy` returns `E(θ) = Σ_i (P_i · [cos θ, sin θ])²` for every
point set and every angle; it returns `0` on the empty point set and is
`2π`-periodic in the angle (so angles outside `[0, 2π)` are tolerated via the
periodicity of cosine and sine). -/
theorem update_energy_spec (data_points : List (ℝ × ℝ)) (angle : ℝ) :
    update_energy data_points angle = energySpec data_points angle ∧
    update_energy [] angle = 0 ∧
    update_energy data_points (angle + 2 * Real.pi) = update_energy data_points angle := by
  refine ⟨?_, by simp [update_energy], ?_⟩
  · unfold update_energy energySpec
    exact list_sum_map_eq_fin_sum _ _
  · unfold update_energy
    simp [Real.cos_add_two_pi, Real.sin_add_two_pi]

/-- C3: for every point set (including the empty one) and every angle, the
denominator `Σ_i ‖P_i‖² + 1e-6` is strictly positive, `energy_ratio` equals
the projected energy divided by that denominator clamped to `[0, 1]`, and the
result always lies in `[0, 1]`. -/
theorem energy_ratio_spec (samples : List (ℝ × ℝ)) (angle : ℝ) :
    0 < total_energy samples ∧
    energy_ratio samples angle =
      np_clipR (update_energy samples angle / total_energy samples) 0 1 ∧
    0 ≤ energy_ratio samples angle ∧ energy_ratio samples angle ≤ 1 := by
  have htot : 0 < total_energy samples := by
    unfold total_energy
    have hs : 0 ≤ (samples.map (fun p => Real.sqrt (p.1 ^ 2 + p.2 ^ 2) ^ 2)).sum := by
      apply List.sum_nonneg
      intro z hz
      rw [List.mem_map] at hz
      obtain ⟨p, -, rfl⟩ := hz
      positivity
    linarith
  refine ⟨htot, rfl, ?_, ?_⟩
  · exact le_min (le_max_right _ _) zero_le_one
  · exact min_le_right _ _

/-- C4: `create_pod_covariance_matrix(θ, λ1, λ2)` equals
`R(θ) · diag(λ1, λ2) · R(θ)ᵗ` with `R(θ)` the standard 2D rotation matrix,
is symmetric, and is positive semi-definite whenever `λ1, λ2 ≥ 0`. -/
theorem create_pod_covariance_matrix_spec (theta lambda1 lambda2 : ℝ)
    (h1 : 0 ≤ lambda1) (h2 : 0 ≤ lambda2) :
    create_pod_covariance_matrix theta lambda1 lambda2 =
      matMul (matMul (rotationM theta) (diagM lambda1 lambda2))
        (transposeM (rotationM theta)) ∧
    IsSymmMat2 (create_pod_covariance_matrix theta lambda1 lambda2) ∧
    ∀ x y : ℝ, 0 ≤ quadForm (create_pod_covariance_matrix theta lambda1 lambda2) x y := by
  refine ⟨rfl, ?_, ?_⟩
  · simp only [IsSymmMat2, create_pod_covariance_matrix, matMul, transposeM, diagM]
    ring
  · intro x y
    have key : quadForm (create_pod_covariance_matrix theta lambda1 lambda2) x y =
        lambda1 * (Real.cos theta * x + Real.sin theta * y) ^ 2 +
          lambda2 * (Real.sin theta * x - Real.cos theta * y) ^ 2 := by
      simp only [quadForm, create_pod_covariance_matrix, matMul, transposeM, diagM]
      ring
    rw [key]
    exact add_nonneg (mul_nonneg h1 (sq_nonneg _)) (mul_nonneg h2 (sq_nonneg _))

/-- Witness for C4 at `θ = 0`, `λ1 = λ2 = 1`. -/
theorem create_pod_covariance_matrix_spec_witness :
    (0 : ℝ) ≤ 1 ∧ IsSymmMat2 (create_pod_covariance_matrix 0 1 1) :=
  ⟨zero_le_one,
    (create_pod_covariance_matrix_spec 0 1 1 zero_le_one zero_le_one).2.1⟩

/-- C5 counterexample: the claim that some pair of symmetric positive-definite
matrices blends to an indefinite matrix at some `α` strictly between 0 and 1
is false — a convex combination of positive-definite matrices is never
indefinite. -/
theorem lerp_matrix_indefinite_claim_false :
    ¬ ∃ (mat_a mat_b : Mat2) (alpha : ℝ),
        IsSymmMat2 mat_a ∧ IsSymmMat2 mat_b ∧ PosDefMat2 mat_a ∧ PosDefMat2 mat_b ∧
        0 < alpha ∧ alpha < 1 ∧ IndefMat2 (lerp_matrix mat_a mat_b alpha) := by
  rintro ⟨ma, mb, alpha, -, -, hpa, hpb, h0, h1, -, ⟨x, y, hneg⟩⟩
  have hq : quadForm (lerp_matrix ma mb alpha) x y =
      (1 - alpha) * quadForm ma x y + alpha * quadForm mb x y := by
    simp only [quadForm, lerp_matrix]
    ring
  rw [hq] at hneg
  by_cases hxy : x = 0 ∧ y = 0
  · obtain ⟨rfl, rfl⟩ := hxy
    simp [quadForm] at hneg
  · have ha := hpa x y hxy
    have hb := hpb x y hxy
    nlinarith [mul_pos (show (0 : ℝ) < 1 - alpha by linarith) ha, mul_pos h0 hb]

/-- C5 amended: `lerp_matrix` returns `(1-α)·Q_a + α·Q_b` elementwise and
preserves symmetry; moreover for `α ∈ [0, 1]` the blend of two symmetric
positive-definite matrices stays positive definite (the positive-definite
cone is convex), so the blend is never indefinite there. -/
theorem lerp_matrix_spec_amended (mat_a mat_b : Mat2) (alpha : ℝ) :
    lerp_matrix mat_a mat_b alpha =
      ⟨(1 - alpha) * mat_a.a + alpha * mat_b.a,
       (1 - alpha) * mat_a.b + alpha * mat_b.b,
       (1 - alpha) * mat_a.c + alpha * mat_b.c,
       (1 - alpha) * mat_a.d + alpha * mat_b.d⟩ ∧
    (IsSymmMat2 mat_a → IsSymmMat2 mat_b → IsSymmMat2 (lerp_matrix mat_a mat_b alpha)) ∧
    (0 ≤ alpha → alpha ≤ 1 → PosDefMat2 mat_a → PosDefMat2 mat_b →
      PosDefMat2 (lerp_matrix mat_a mat_b alpha)) := by
  refine ⟨rfl, ?_, ?_⟩
  · intro hsa hsb
    simp only [IsSymmMat2, lerp_matrix] at hsa hsb ⊢
    rw [hsa, hsb]
  · intro ha0 ha1 hpa hpb x y hxy
    have ha := hpa x y hxy
    have hb := hpb x y hxy
    have hq : quadForm (lerp_matrix mat_a mat_b alpha) x y =
        (1 - alpha) * quadForm mat_a x y + alpha * quadForm mat_b x y := by
      simp only [quadForm, lerp_matrix]
      ring
    rw [hq]
    rcases eq_or_lt_of_le ha1 with heq | hlt
    · rw [heq]
      simpa using hb
    · have hposa := mul_pos (show (0 : ℝ) < 1 - alpha by linarith) ha
      have hposb := mul_nonneg ha0 hb.le
      linarith

/-- Witness for C5's amended statement: blending the identity matrix with
itself at `α = 1/2` stays positive definite. -/
theorem lerp_matrix_spec_amended_witness :
    (0 : ℝ) ≤ 1 / 2 ∧ PosDefMat2 (lerp_matrix ⟨1, 0, 0, 1⟩ ⟨1, 0, 0, 1⟩ (1 / 2)) := by
  have hpd : PosDefMat2 (⟨1, 0, 0, 1⟩ : Mat2) := by
    intro x y hxy
    simp only [quadForm]
    rcases not_and_or.1 hxy with hx | hy
    · nlinarith [mul_self_nonneg y, (mul_self_pos).2 hx]
    · nlinarith [mul_self_nonneg x, (mul_self_pos).2 hy]
  exact ⟨by norm_num,
    (lerp_matrix_spec_amended ⟨1, 0, 0, 1⟩ ⟨1, 0, 0, 1⟩ (1 / 2)).2.2
      (by norm_num) (by norm_num) hpd hpd⟩

/-- The first component of `composite_gradient` is the partial derivative of
`fComp` in `x`. -/
lemma hasDerivAt_fComp_x (x y : ℝ) :
    HasDerivAt (fun t => fComp t y) ((composite_gradient x y).x) x := by
  have hpow : HasDerivAt (fun t : ℝ => t ^ 2) (2 * x) x := by
    simpa using hasDerivAt_pow 2 x
  have harg : HasDerivAt (fun t : ℝ => -t ^ 2 / (2 * 3 ^ 2) - y ^ 2 / (2 * 2 ^ 2))
      (-(2 * x) / (2 * 3 ^ 2)) x :=
    (hpow.neg.div_const (2 * 3 ^ 2)).sub_const (y ^ 2 / (2 * 2 ^ 2))
  have hexp := (harg.exp).const_mul (0.8 : ℝ)
  have hlin : HasDerivAt (fun t : ℝ => 0.8 * t) 0.8 x := by
    simpa using (hasDerivAt_id x).const_mul (0.8 : ℝ)
  have hrip := (hlin.sin.const_mul (0.4 : ℝ)).mul_const (Real.cos (0.6 * y))
  have hsum := hexp.add hrip
  have hval : (composite_gradient x y).x =
      0.8 * (Real.exp (-x ^ 2 / (2 * 3 ^ 2) - y ^ 2 / (2 * 2 ^ 2)) * (-(2 * x) / (2 * 3 ^ 2))) +
        0.4 * (Real.cos (0.8 * x) * 0.8) * Real.cos (0.6 * y) := by
    simp only [composite_gradient, gaussian_gradient, vadd]
    rw [show -(((x - 0) ^ 2 / (2 * 3 ^ 2)) + ((y - 0) ^ 2 / (2 * 2 ^ 2))) =
        -x ^ 2 / (2 * 3 ^ 2) - y ^ 2 / (2 * 2 ^ 2) by ring]
    ring
  rw [hval]
  exact hsum

/-- The second component of `composite_gradient` is the partial derivative of
`fComp` in `y`. -/
lemma hasDerivAt_fComp_y (x y : ℝ) :
    HasDerivAt (fun t => fComp x t) ((composite_gradient x y).y) y := by
  have hpow : HasDerivAt (fun t : ℝ => t ^ 2) (2 * y) y := by
    simpa using hasDerivAt_pow 2 y
  have harg : HasDerivAt (fun t : ℝ => -x ^ 2 / (2 * 3 ^ 2) - t ^ 2 / (2 * 2 ^ 2))
      (-(2 * y / (2 * 2 ^ 2))) y :=
    (hpow.div_const (2 * 2 ^ 2)).const_sub (-x ^ 2 / (2 * 3 ^ 2))
  have hexp := (harg.exp).const_mul (0.8 : ℝ)
  have hlin : HasDerivAt (fun t : ℝ => 0.6 * t) 0.6 y := by
    simpa using (hasDerivAt_id y).const_mul (0.6 : ℝ)
  have hrip := hlin.cos.const_mul (0.4 * Real.sin (0.8 * x))
  have hsum := hexp.add hrip
  have hval : (composite_gradient x y).y =
      0.8 * (Real.exp (-x ^ 2 / (2 * 3 ^ 2) - y ^ 2 / (2 * 2 ^ 2)) * -(2 * y / (2 * 2 ^ 2))) +
        0.4 * Real.sin (0.8 * x) * (-Real.sin (0.6 * y) * 0.6) := by
    simp only [composite_gradient, gaussian_gradient, vadd]
    rw [show -(((x - 0) ^ 2 / (2 * 3 ^ 2)) + ((y - 0) ^ 2 / (2 * 2 ^ 2))) =
        -x ^ 2 / (2 * 3 ^ 2) - y ^ 2 / (2 * 2 ^ 2) by ring]
    ring
  rw [hval]
  exact hsum

/-- C6: `composite_gradient(x, y)` is exactly the mathematical gradient
`[∂f/∂x, ∂f/∂y, 0]` of the field
`f(x, y) = 0.8·exp(−x²/(2·3²) − y²/(2·2²)) + 0.4·sin(0.8x)·cos(0.6y)`. -/
theorem composite_gradient_is_gradient (x y : ℝ) :
    HasDerivAt (fun t => fComp t y) ((composite_gradient x y).x) x ∧
    HasDerivAt (fun t => fComp x t) ((composite_gradient x y).y) y ∧
    (composite_gradient x y).z = 0 :=
  ⟨hasDerivAt_fComp_x x y, hasDerivAt_fComp_y x y, by
    simp [composite_gradient, gaussian_gradient, vadd]⟩

/-- The partial derivative in `u` of the rendered surface height
`z(u, v) = 0.8·exp(−(u²/9 + v²/4)) + 0.4·sin(0.8u)·cos(0.6v)`. -/
lemma hasDerivAt_surface_height_x (x y : ℝ) :
    HasDerivAt (fun u => surface_height u y)
      (0.8 * (Real.exp (-(x ^ 2 / 9 + y ^ 2 / 4)) * -(2 * x / 9)) +
        0.4 * (Real.cos (0.8 * x) * 0.8) * Real.cos (0.6 * y)) x := by
  have hpow : HasDerivAt (fun t : ℝ => t ^ 2) (2 * x) x := by
    simpa using hasDerivAt_pow 2 x
  have harg : HasDerivAt (fun t : ℝ => -(t ^ 2 / 9 + y ^ 2 / 4)) (-(2 * x / 9)) x :=
    ((hpow.div_const 9).add_const (y ^ 2 / 4)).neg
  have hexp := (harg.exp).const_mul (0.8 : ℝ)
  have hlin : HasDerivAt (fun t : ℝ => 0.8 * t) 0.8 x := by
    simpa using (hasDerivAt_id x).const_mul (0.8 : ℝ)
  have hrip := (hlin.sin.const_mul (0.4 : ℝ)).mul_const (Real.cos (0.6 * y))
  exact hexp.add hrip

/-- `exp(1/18) < 2`, used to separate the two exponential decay rates. -/
lemma exp_one_eighteenth_lt_two : Real.exp ((1 : ℝ) / 18) < 2 := by
  have hlog : (1 : ℝ) / 18 < Real.log 2 := by
    have h9 := Real.log_two_gt_d9
    norm_num at h9 ⊢
    linarith
  calc Real.exp ((1 : ℝ) / 18) < Real.exp (Real.log 2) := Real.exp_lt_exp.2 hlog
    _ = 2 := Real.exp_log (by norm_num)

/-- C10: `composite_gradient` is the gradient of a field that differs from the
height function rendered by `abstract_landscape_surface`: at `(1, 0)` the two
fields disagree, and the `x`-component of `composite_gradient` differs from
the derivative of the rendered height function there. -/
theorem composite_gradient_differs_from_surface :
    fComp 1 0 ≠ surface_height 1 0 ∧
    ∃ g : ℝ, HasDerivAt (fun u => surface_height u 0) g 1 ∧
      (composite_gradient 1 0).x ≠ g := by
  have hkey : Real.exp (-(1 / 18 : ℝ)) ≠ 2 * Real.exp (-(1 / 9 : ℝ)) := by
    intro hcontra
    have hmul : Real.exp (-(1 / 18 : ℝ)) * Real.exp ((1 : ℝ) / 9) =
        2 * (Real.exp (-(1 / 9 : ℝ)) * Real.exp ((1 : ℝ) / 9)) := by
      rw [hcontra]; ring
    rw [← Real.exp_add, ← Real.exp_add] at hmul
    norm_num [Real.exp_zero] at hmul
    exact absurd hmul (ne_of_lt exp_one_eighteenth_lt_two)
  constructor
  · unfold fComp surface_height
    norm_num
  · refine ⟨_, hasDerivAt_surface_height_x 1 0, ?_⟩
    simp only [composite_gradient, gaussian_gradient, vadd]
    norm_num
    intro hcontra
    apply hkey
    linarith

end PODSpec
